import Mathlib

/-!
Verification of the research-paper-summarizer core pipelines.

Text is modelled as `List Char` (one Python `str` character per entry).
The embedding follows `src/utils/pdf_reader.py` and `src/utils/summarizer.py`:
pure Python string builtins (`strip`, `splitlines`, `split`, `join`) are
translated to executable Lean functions over `List Char`, external backends
(pdfplumber, PyMuPDF page rendering, pytesseract, the HuggingFace tokenizer
and summarization pipeline) appear as explicit parameters recording what each
call returned or raised.
-/

namespace RPS

/-- One Python string, character by character. -/
abbrev PyStr := List Char

/-- Python `str.isspace` restricted to the ASCII whitespace characters
(space, tab, newline, carriage return, vertical tab, form feed). -/
def pyIsSpace (c : Char) : Bool :=
  c = ' ' || c = '\t' || c = '\n' || c = '\r' || c = '\x0b' || c = '\x0c'

/-- Python `str.strip()`: drop whitespace from the front, then from the back. -/
def pyStrip (s : PyStr) : PyStr :=
  ((s.dropWhile pyIsSpace).reverse.dropWhile pyIsSpace).reverse

/-- Worker for `pySplitlines`; `acc` holds the current line reversed and
`prevCR` records that the previous character was a `\r` whose line was
already emitted, so that the `\n` of a `\r\n` pair is not a second break. -/
def splitlinesAux : Bool → List Char → List Char → List PyStr
  | _, [], acc => if acc = [] then [] else [acc.reverse]
  | prevCR, c :: rest, acc =>
    if c = '\n' then
      if prevCR then splitlinesAux false rest acc
      else acc.reverse :: splitlinesAux false rest []
    else if c = '\r' then acc.reverse :: splitlinesAux true rest []
    else splitlinesAux false rest (c :: acc)

/-- Python `str.splitlines()` for the line breaks `\n`, `\r\n` and `\r`:
no empty trailing line is produced for a trailing break. -/
def pySplitlines (s : PyStr) : List PyStr :=
  splitlinesAux false s []

/-- Worker for `pySplitWs`; `acc` holds the current word reversed. -/
def pySplitWsAux : List Char → List Char → List PyStr
  | [], acc => if acc = [] then [] else [acc.reverse]
  | c :: rest, acc =>
    if pyIsSpace c then
      if acc = [] then pySplitWsAux rest []
      else acc.reverse :: pySplitWsAux rest []
    else pySplitWsAux rest (c :: acc)

/-- Python `str.split()` with no argument: split on whitespace runs,
dropping empty words. -/
def pySplitWs (s : PyStr) : List PyStr :=
  pySplitWsAux s []

/-- Python `" ".join(parts)`. -/
def joinSp : List PyStr → PyStr
  | [] => []
  | [x] => x
  | x :: xs => x ++ ' ' :: joinSp xs

/-- Python `"\n\n".join(parts)`. -/
def joinNN : List PyStr → PyStr
  | [] => []
  | [x] => x
  | x :: xs => x ++ '\n' :: '\n' :: joinNN xs

/-- Interleave a blank line between consecutive entries: the line list of a
`"\n\n"`-joined paragraph list. -/
def blankSep : List PyStr → List PyStr
  | [] => []
  | [x] => [x]
  | x :: xs => x :: [] :: blankSep xs

/-- A well-formed output paragraph of the layout normalizer: non-empty,
strip-invariant, and free of line-break characters. -/
def goodPara (p : PyStr) : Prop :=
  p ≠ [] ∧ pyStrip p = p ∧ '\n' ∉ p ∧ '\r' ∉ p

/-! ## Embedding of `src/utils/pdf_reader.py` -/

/-- Exception classes that can escape an OCR-related call in
`pdf_reader.py`: `pytesseract.TesseractError`, or any other `Exception`. -/
inductive OcrExc
  | tesseract
  | other
deriving DecidableEq, Repr

/-- Error surfaced by `extract_text_from_pdf`: the `RuntimeError` raised on a
propagating `pytesseract.TesseractError` (the spec's `OCRUnavailable`). -/
inductive PdfErr
  | ocrUnavailable
deriving DecidableEq, Repr

/-- `"cleaned_lines.append(" ".join(buffer))"` guarded by `if buffer:` in
`_layout_aware_fix`. -/
def flushB (cleaned buffer : List PyStr) : List PyStr :=
  if buffer = [] then cleaned else cleaned ++ [joinSp buffer]

/-- The body of the `for line in lines:` loop of `_layout_aware_fix`,
acting on the state `(cleaned_lines, buffer)`. -/
def fixStep (st : List PyStr × List PyStr) (line : PyStr) : List PyStr × List PyStr :=
  if pyStrip line = [] then
    (flushB st.1 st.2, [])
  else if line.length < 120 then
    (st.1, st.2 ++ [pyStrip line])
  else
    (flushB st.1 st.2 ++ [pyStrip line], [])

/-- The `cleaned_lines` list produced by `_layout_aware_fix` from its line
list: run the loop from the empty state, then flush the remaining buffer. -/
def linesParas (lines : List PyStr) : List PyStr :=
  let st := lines.foldl fixStep ([], [])
  flushB st.1 st.2

/-- `_layout_aware_fix` of `pdf_reader.py`: split into lines, merge short
lines into paragraphs, join paragraphs with a blank line, strip. -/
def _layout_aware_fix (raw_text : PyStr) : PyStr :=
  pyStrip (joinNN (linesParas (pySplitlines raw_text)))

/-- `text = _extract_with_pdfplumber(...)` wrapped in
`try ... except Exception: text = ""` in `extract_text_from_pdf`:
the stage-1 working text. -/
def stage1Text (plumber : Except Unit PyStr) : PyStr :=
  match plumber with
  | .ok t => t
  | .error _ => []

/-- The layout-repair stage of `extract_text_from_pdf`: if the text is
non-empty and shorter than `2 * ocr_threshold_chars`, replace it by
`_layout_aware_fix` output only when that output is strictly longer. -/
def layoutRepairStage (text : PyStr) (ocr_threshold_chars : Nat) : PyStr :=
  if text ≠ [] ∧ text.length < ocr_threshold_chars * 2 then
    let text_fixed := _layout_aware_fix text
    if text_fixed.length > text.length then text_fixed else text
  else text

/-- The OCR-update step of `extract_text_from_pdf`: adopt the OCR output only
when it is non-empty and strictly longer than the working text. -/
def ocrUpdate (text ocr_text : PyStr) : PyStr :=
  if ocr_text ≠ [] ∧ ocr_text.length > text.length then ocr_text else text

/-- `_ocr_with_fitz` of `pdf_reader.py`.  `docFail` records an exception
raised outside the per-page `try` (by `fitz.open` / `load_page`), which
propagates; `pages` records, per page, either the `pytesseract` text or the
exception raised inside the per-page `try`, which is logged and the page
skipped.  Successful page texts are joined with a blank line and stripped. -/
def _ocr_with_fitz (docFail : Option OcrExc) (pages : List (Except OcrExc PyStr)) :
    Except OcrExc PyStr :=
  match docFail with
  | some e => .error e
  | none => .ok (pyStrip (joinNN (pages.filterMap Except.toOption)))

/-- `extract_text_from_pdf` of `pdf_reader.py`, with the external stages as
parameters: structured extraction, then conditional layout repair, then the
conditional OCR fallback whose `pytesseract.TesseractError` is re-raised as a
fatal `RuntimeError` and whose other exceptions are absorbed. -/
def extract_text_from_pdf (plumber : Except Unit PyStr) (docFail : Option OcrExc)
    (pages : List (Except OcrExc PyStr)) (ocr_threshold_chars : Nat := 200) :
    Except PdfErr PyStr :=
  let text := stage1Text plumber
  let text := layoutRepairStage text ocr_threshold_chars
  if text = [] ∨ text.length < ocr_threshold_chars then
    match _ocr_with_fitz docFail pages with
    | .ok ocr_text => .ok (pyStrip (ocrUpdate text ocr_text))
    | .error .tesseract => .error .ocrUnavailable
    | .error .other => .ok (pyStrip text)
  else .ok (pyStrip text)

/-! ## Embedding of `src/utils/summarizer.py` -/

/-- The injected tokenizer capability: `tokenizer.encode(text,
add_special_tokens=False)` and `tokenizer.decode(token_ids, ...)`. -/
structure Tokenizer where
  encode : PyStr → List Nat
  decode : List Nat → PyStr

/-- The `ValueError` raised by `chunk_text` on a bad configuration. -/
inductive ChunkErr
  | invalidChunkConfig
deriving DecidableEq, Repr

/-- The `while start < total_tokens:` loop of `chunk_text`.  `fuel` bounds
the number of iterations; `enc.length` iterations always suffice because a
valid configuration advances `start` by `chunk_size - overlap ≥ 1`. -/
def chunkLoop (tok : Tokenizer) (enc : List Nat) (chunk_size overlap : Nat) :
    Nat → Nat → List PyStr
  | 0, _ => []
  | fuel + 1, start =>
    if start < enc.length then
      let e := min (start + chunk_size) enc.length
      let decoded := pyStrip (tok.decode ((enc.drop start).take (e - start)))
      if e = enc.length then [decoded]
      else decoded :: chunkLoop tok enc chunk_size overlap fuel (start + (chunk_size - overlap))
    else []

/-- `chunk_text` of `summarizer.py`: validate the configuration, encode the
text, and slide a `chunk_size`-token window with stride
`chunk_size - overlap`, decoding and stripping each window. -/
def chunk_text (text : PyStr) (tok : Tokenizer) (chunk_size : Int := 512)
    (overlap : Int := 64) : Except ChunkErr (List PyStr) :=
  if chunk_size ≤ 0 ∨ overlap ≥ chunk_size ∨ overlap < 0 then
    .error .invalidChunkConfig
  else
    let enc := tok.encode text
    if enc.length = 0 then .ok []
    else .ok (chunkLoop tok enc chunk_size.toNat overlap.toNat enc.length 0)

/-- The dummy tokenizer of `tests/test_summarizer.py`: `encode` maps each
whitespace-separated word to its length, `decode` yields one `[t]`
placeholder per token id, joined by spaces. -/
def dummyTok : Tokenizer :=
  ⟨fun t => (pySplitWs t).map List.length,
   fun ids => joinSp (ids.map (fun _ => "[t]".data))⟩

/-- The end-to-end scenario text `"a " * 1200` (1200 whitespace tokens). -/
def text1200 : PyStr := (List.replicate 1200 "a ".data).flatten

/-- Fixed tiny tokenizers used to instantiate universally quantified
statements at concrete inputs. -/
def tokA : Tokenizer := ⟨fun _ => [0], fun _ => ['t']⟩

def tokB : Tokenizer := ⟨fun _ => [1, 2], fun _ => ['u']⟩

def tokE : Tokenizer := ⟨fun _ => [], fun _ => []⟩

def tokC3 : Tokenizer :=
  ⟨fun _ => [10, 20, 30, 40, 50], fun ids => List.replicate ids.length 'x'⟩

/-- Number of chunks the window loop emits over `r` remaining tokens
(`r ≥ 1`): `ceil((r - overlap) / (chunk_size - overlap))` when
`r > overlap`, else one chunk. -/
def chunkCount (chunk_size overlap r : Nat) : Nat :=
  if overlap < r then (r - overlap + (chunk_size - overlap) - 1) / (chunk_size - overlap)
  else 1

/-- The injected summarization capability: one batched call of the
HuggingFace pipeline, `texts → max_length → min_length →` one summary
string per returned element. -/
abbrev SummCap := List PyStr → Nat → Nat → List PyStr

/-- Errors of the `Summarizer` methods: the `RuntimeError` for a missing
model (`ModelNotLoaded`), the `ValueError` of `range(0, n, 0)`, and the
`IndexError` of `result[0]` on an empty pipeline result. -/
inductive SummErr
  | modelNotLoaded
  | valueError
  | indexError
deriving DecidableEq, Repr

/-- The `Summarizer` object state: `model_name`, `tokenizer`, `model` and
`pipeline` all start as `None` and are set by `load_model`. -/
structure Summarizer where
  model_name : Option PyStr
  tokenizer : Option Tokenizer
  model : Option Unit
  pipeline : Option SummCap

/-- `Summarizer.load_model`: a no-op when the same model is already loaded,
otherwise installs the externally constructed tokenizer/model/pipeline
triple (`tok`/`pl` stand for the objects the HuggingFace calls return for
`model_name`). -/
def Summarizer.load_model (s : Summarizer) (model_name : PyStr) (tok : Tokenizer)
    (pl : SummCap) : Summarizer :=
  if s.model_name = some model_name ∧ s.pipeline.isSome then s
  else { model_name := some model_name, tokenizer := some tok,
         model := some (), pipeline := some pl }

/-- A fresh `Summarizer()` object: the Unloaded state. -/
def sU : Summarizer := ⟨none, none, none, none⟩

/-- The identity summarization capability, one output per input text. -/
def plId : SummCap := fun texts _ _ => texts

/-- The consecutive batches `chunks[i:i+b]` for `i in range(0, len(chunks),
b)` with a positive batch size `b`. -/
def pyBatches (chunks : List PyStr) (b : Nat) : List (List PyStr) :=
  (List.range ((chunks.length + b - 1) / b)).map (fun j => (chunks.drop (j * b)).take b)

/-- The index list of Python `range(0, n, step)` for `n ≥ 0`, as used by
`summarize_chunks`; `step = 0` raises `ValueError`, a negative `step`
yields no indices. -/
def pyRangeIdx (n : Nat) (step : Int) : Except SummErr (List Nat) :=
  if step = 0 then .error .valueError
  else if step < 0 then .ok []
  else .ok ((List.range ((n + step.toNat - 1) / step.toNat)).map (· * step.toNat))

/-- `Summarizer.summarize_chunks`: fail when no pipeline is loaded, then
summarize `chunks[i:i+batch_size]` for each `i in range(0, len(chunks),
batch_size)`, appending each batch result stripped. -/
def Summarizer.summarize_chunks (s : Summarizer) (chunks : List PyStr)
    (batch_size : Int := 4) (max_length : Nat := 150) (min_length : Nat := 30) :
    Except SummErr (List PyStr) :=
  match s.pipeline with
  | none => .error .modelNotLoaded
  | some pl =>
    match pyRangeIdx chunks.length batch_size with
    | .error e => .error e
    | .ok idxs =>
      .ok (idxs.foldl
        (fun summaries i =>
          summaries ++
            ((pl ((chunks.drop i).take batch_size.toNat) max_length min_length).map pyStrip))
        [])

/-- `Summarizer.aggregate_summaries`: empty input short-circuits to `""`
before the model check; then the summaries are joined with a blank line and
either returned stripped (word count at most `final_summary_min_length`) or
summarized once more by the pipeline. -/
def Summarizer.aggregate_summaries (s : Summarizer) (chunk_summaries : List PyStr)
    (final_summary_max_length : Nat := 200) (final_summary_min_length : Nat := 50) :
    Except SummErr PyStr :=
  if chunk_summaries = [] then .ok []
  else
    match s.pipeline with
    | none => .error .modelNotLoaded
    | some pl =>
      let concat := joinNN chunk_summaries
      if (pySplitWs concat).length ≤ final_summary_min_length then .ok (pyStrip concat)
      else
        match pl [concat] final_summary_max_length final_summary_min_length with
        | [] => .error .indexError
        | r :: _ => .ok (pyStrip r)

/-! ## Lemmas about `dropWhile` and `pyStrip` -/

theorem dropWhile_len_le (p : Char → Bool) (l : List Char) :
    (l.dropWhile p).length ≤ l.length := by
  induction l with
  | nil => simp
  | cons a t ih =>
    rw [List.dropWhile_cons]
    split
    · exact Nat.le_trans ih (Nat.le_succ _)
    · simp

theorem dropWhile_eq_self_of_len (p : Char → Bool) (l : List Char)
    (h : (l.dropWhile p).length = l.length) : l.dropWhile p = l := by
  cases l with
  | nil => simp
  | cons a t =>
    rw [List.dropWhile_cons] at h ⊢
    split at h
    · have := dropWhile_len_le p t
      simp at h
      omega
    · simp_all

theorem dropWhile_dropWhile (p : Char → Bool) (l : List Char) :
    (l.dropWhile p).dropWhile p = l.dropWhile p := by
  induction l with
  | nil => simp
  | cons a t ih =>
    rw [List.dropWhile_cons]
    split
    · exact ih
    · rw [List.dropWhile_cons]
      simp_all

theorem head_dropWhile_false (p : Char → Bool) (l : List Char) (a : Char)
    (t : List Char) (h : l.dropWhile p = a :: t) : p a = false := by
  induction l with
  | nil => simp at h
  | cons b u ih =>
    rw [List.dropWhile_cons] at h
    split at h
    · exact ih h
    · cases h
      simp_all

theorem exists_append_dropWhile (p : Char → Bool) (l : List Char) :
    ∃ u, u ++ l.dropWhile p = l := by
  induction l with
  | nil => exact ⟨[], rfl⟩
  | cons a t ih =>
    rw [List.dropWhile_cons]
    split
    · obtain ⟨u, hu⟩ := ih
      exact ⟨a :: u, by simp [hu]⟩
    · exact ⟨[], rfl⟩

theorem mem_of_mem_dropWhile (p : Char → Bool) (l : List Char) (c : Char)
    (h : c ∈ l.dropWhile p) : c ∈ l := by
  obtain ⟨u, hu⟩ := exists_append_dropWhile p l
  rw [← hu]
  exact List.mem_append_right u h

theorem length_pyStrip_le (l : PyStr) : (pyStrip l).length ≤ l.length := by
  unfold pyStrip
  rw [List.length_reverse]
  calc ((l.dropWhile pyIsSpace).reverse.dropWhile pyIsSpace).length
      ≤ (l.dropWhile pyIsSpace).reverse.length := dropWhile_len_le _ _
    _ = (l.dropWhile pyIsSpace).length := List.length_reverse _
    _ ≤ l.length := dropWhile_len_le _ _

theorem stripL_eq_of_pyStrip_eq (l : PyStr) (h : pyStrip l = l) :
    l.dropWhile pyIsSpace = l := by
  apply dropWhile_eq_self_of_len
  have h1 : (pyStrip l).length ≤ (l.dropWhile pyIsSpace).length := by
    unfold pyStrip
    rw [List.length_reverse]
    calc ((l.dropWhile pyIsSpace).reverse.dropWhile pyIsSpace).length
        ≤ (l.dropWhile pyIsSpace).reverse.length := dropWhile_len_le _ _
      _ = (l.dropWhile pyIsSpace).length := List.length_reverse _
  have h2 := dropWhile_len_le pyIsSpace l
  rw [h] at h1
  omega

theorem stripR_eq_of_pyStrip_eq (l : PyStr) (h : pyStrip l = l) :
    l.reverse.dropWhile pyIsSpace = l.reverse := by
  have hL := stripL_eq_of_pyStrip_eq l h
  have : pyStrip l = (l.reverse.dropWhile pyIsSpace).reverse := by
    unfold pyStrip
    rw [hL]
  rw [h] at this
  calc l.reverse.dropWhile pyIsSpace
      = (l.reverse.dropWhile pyIsSpace).reverse.reverse := (List.reverse_reverse _).symm
    _ = l.reverse := by rw [← this]

theorem head_not_space (l : PyStr) (a : Char) (t : List Char)
    (h : pyStrip l = l) (he : l = a :: t) : pyIsSpace a = false := by
  have hL := stripL_eq_of_pyStrip_eq l h
  rw [he, List.dropWhile_cons] at hL
  split at hL
  · have := dropWhile_len_le pyIsSpace t
    have hlen : (t.dropWhile pyIsSpace).length = t.length + 1 := by rw [hL]; simp
    omega
  · simp_all

theorem last_not_space (l : PyStr) (a : Char) (t : List Char)
    (h : pyStrip l = l) (he : l.reverse = a :: t) : pyIsSpace a = false := by
  have hR := stripR_eq_of_pyStrip_eq l h
  rw [he, List.dropWhile_cons] at hR
  split at hR
  · have := dropWhile_len_le pyIsSpace t
    have hlen : (t.dropWhile pyIsSpace).length = t.length + 1 := by rw [hR]; simp
    omega
  · simp_all

theorem pyStrip_sandwich (x m y : PyStr) (hx : pyStrip x = x) (hx0 : x ≠ [])
    (hy : pyStrip y = y) (hy0 : y ≠ []) : pyStrip (x ++ m ++ y) = x ++ m ++ y := by
  obtain ⟨a, x', rfl⟩ : ∃ a x', x = a :: x' := by
    cases x with
    | nil => exact absurd rfl hx0
    | cons a x' => exact ⟨a, x', rfl⟩
  have ha : pyIsSpace a = false := head_not_space _ a x' hx rfl
  obtain ⟨b, y', hyrev⟩ : ∃ b y', y.reverse = b :: y' := by
    cases hyr : y.reverse with
    | nil => exact absurd (by simpa using congrArg List.reverse hyr) hy0
    | cons b y' => exact ⟨b, y', rfl⟩
  have hb : pyIsSpace b = false := last_not_space _ b y' hy hyrev
  unfold pyStrip
  have h1 : ((a :: x' ++ m ++ y).dropWhile pyIsSpace) = a :: x' ++ m ++ y := by
    rw [show a :: x' ++ m ++ y = a :: (x' ++ m ++ y) by simp, List.dropWhile_cons]
    simp [ha]
  rw [h1]
  have h2 : (a :: x' ++ m ++ y).reverse = b :: (y' ++ m.reverse ++ (a :: x').reverse) := by
    rw [List.reverse_append, List.reverse_append, hyrev]
    simp
  rw [h2, List.dropWhile_cons]
  simp only [hb, Bool.false_eq_true, if_false]
  rw [← h2]
  simp

theorem pyStrip_idem (l : PyStr) : pyStrip (pyStrip l) = pyStrip l := by
  have hR : (pyStrip l).reverse.dropWhile pyIsSpace = (pyStrip l).reverse := by
    unfold pyStrip
    rw [List.reverse_reverse]
    exact dropWhile_dropWhile _ _
  have hL : (pyStrip l).dropWhile pyIsSpace = pyStrip l := by
    cases hs : pyStrip l with
    | nil => simp
    | cons a t =>
      have hpre : ∃ w, pyStrip l ++ w = l.dropWhile pyIsSpace := by
        obtain ⟨w, hw⟩ :=
          exists_append_dropWhile pyIsSpace (l.dropWhile pyIsSpace).reverse
        refine ⟨w.reverse, ?_⟩
        unfold pyStrip
        calc ((l.dropWhile pyIsSpace).reverse.dropWhile pyIsSpace).reverse ++ w.reverse
            = (w ++ (l.dropWhile pyIsSpace).reverse.dropWhile pyIsSpace).reverse := by
              rw [List.reverse_append]
          _ = ((l.dropWhile pyIsSpace).reverse).reverse := by rw [hw]
          _ = l.dropWhile pyIsSpace := List.reverse_reverse _
      obtain ⟨w, hw⟩ := hpre
      have hd : l.dropWhile pyIsSpace = a :: (t ++ w) := by
        rw [← hw, hs]
        simp
      have ha : pyIsSpace a = false := head_dropWhile_false pyIsSpace l a (t ++ w) hd
      rw [List.dropWhile_cons]
      simp [ha]
  calc pyStrip (pyStrip l)
      = (((pyStrip l).dropWhile pyIsSpace).reverse.dropWhile pyIsSpace).reverse := rfl
    _ = ((pyStrip l).reverse.dropWhile pyIsSpace).reverse := by rw [hL]
    _ = (pyStrip l).reverse.reverse := by rw [hR]
    _ = pyStrip l := List.reverse_reverse _

theorem mem_pyStrip (l : PyStr) (c : Char) (h : c ∈ pyStrip l) : c ∈ l := by
  unfold pyStrip at h
  rw [List.mem_reverse] at h
  have h1 := mem_of_mem_dropWhile _ _ _ h
  rw [List.mem_reverse] at h1
  exact mem_of_mem_dropWhile _ _ _ h1

/-! ## Lemmas about the joiners -/

theorem joinSp_cons_cons (x y : PyStr) (r : List PyStr) :
    joinSp (x :: y :: r) = x ++ ' ' :: joinSp (y :: r) := rfl

theorem joinNN_cons_cons (x y : PyStr) (r : List PyStr) :
    joinNN (x :: y :: r) = x ++ '\n' :: '\n' :: joinNN (y :: r) := rfl

theorem joinSp_good (buffer : List PyStr)
    (hb : ∀ b ∈ buffer, b ≠ [] ∧ pyStrip b = b) (h0 : buffer ≠ []) :
    joinSp buffer ≠ [] ∧ pyStrip (joinSp buffer) = joinSp buffer := by
  induction buffer with
  | nil => exact absurd rfl h0
  | cons x xs ih =>
    cases xs with
    | nil =>
      have := hb x (List.mem_cons_self x [])
      simpa [joinSp] using this
    | cons y r =>
      have hx := hb x (List.mem_cons_self x (y :: r))
      have hrest := ih (fun b hbmem => hb b (List.mem_cons_of_mem x hbmem)) (by simp)
      rw [joinSp_cons_cons]
      constructor
      · simp [hx.1]
      · have : x ++ ' ' :: joinSp (y :: r) = x ++ [' '] ++ joinSp (y :: r) := by simp
        rw [this]
        exact pyStrip_sandwich x [' '] (joinSp (y :: r)) hx.2 hx.1 hrest.2 hrest.1

theorem joinNN_good (ps : List PyStr)
    (hb : ∀ p ∈ ps, p ≠ [] ∧ pyStrip p = p) (h0 : ps ≠ []) :
    joinNN ps ≠ [] ∧ pyStrip (joinNN ps) = joinNN ps := by
  induction ps with
  | nil => exact absurd rfl h0
  | cons x xs ih =>
    cases xs with
    | nil =>
      have := hb x (List.mem_cons_self x [])
      simpa [joinNN] using this
    | cons y r =>
      have hx := hb x (List.mem_cons_self x (y :: r))
      have hrest := ih (fun b hbmem => hb b (List.mem_cons_of_mem x hbmem)) (by simp)
      rw [joinNN_cons_cons]
      constructor
      · simp [hx.1]
      · have : x ++ '\n' :: '\n' :: joinNN (y :: r) = x ++ ['\n', '\n'] ++ joinNN (y :: r) := by
          simp
        rw [this]
        exact pyStrip_sandwich x ['\n', '\n'] (joinNN (y :: r)) hx.2 hx.1 hrest.2 hrest.1

theorem mem_joinSp (buffer : List PyStr) (c : Char) (h : c ∈ joinSp buffer) :
    c = ' ' ∨ ∃ b ∈ buffer, c ∈ b := by
  induction buffer with
  | nil => simp [joinSp] at h
  | cons x xs ih =>
    cases xs with
    | nil =>
      right
      exact ⟨x, List.mem_cons_self x [], by simpa [joinSp] using h⟩
    | cons y r =>
      rw [joinSp_cons_cons, List.mem_append, List.mem_cons] at h
      rcases h with hx | hc | hrest
      · exact Or.inr ⟨x, List.mem_cons_self x _, hx⟩
      · exact Or.inl hc
      · rcases ih hrest with hsp | ⟨b, hbmem, hcb⟩
        · exact Or.inl hsp
        · exact Or.inr ⟨b, List.mem_cons_of_mem x hbmem, hcb⟩

/-! ## Lemmas about the layout-normalizer loop -/

/-- A single `fixStep` only appends to the `cleaned_lines` component. -/
theorem fixStep_append (c b : List PyStr) (line : PyStr) :
    fixStep (c, b) line =
      (c ++ (fixStep ([], b) line).1, (fixStep ([], b) line).2) := by
  unfold fixStep flushB
  by_cases h1 : pyStrip line = []
  · by_cases h2 : b = [] <;> simp [h1, h2]
  · by_cases h3 : line.length < 120
    · simp [h1, h3]
    · by_cases h2 : b = [] <;> simp [h1, h2, h3]

/-- The whole loop only appends to the `cleaned_lines` component. -/
theorem foldl_fixStep_append (ls : List PyStr) (c b : List PyStr) :
    ls.foldl fixStep (c, b) =
      (c ++ (ls.foldl fixStep ([], b)).1, (ls.foldl fixStep ([], b)).2) := by
  induction ls generalizing c b with
  | nil => simp
  | cons l ls ih =>
    rw [List.foldl_cons, List.foldl_cons, fixStep_append c b l]
    rw [ih (c ++ (fixStep ([], b) l).1) (fixStep ([], b) l).2]
    rw [ih (fixStep ([], b) l).1 (fixStep ([], b) l).2]
    simp

theorem flushB_append (x y b : List PyStr) :
    flushB (x ++ y) b = x ++ flushB y b := by
  unfold flushB
  by_cases h : b = [] <;> simp [h]

/-- A blank line cuts the paragraph list: no paragraph ever spans a
blank-line boundary, and the pending buffer is flushed there exactly as at
end of input. -/
theorem linesParas_blank_split (ls1 ls2 : List PyStr) (blank : PyStr)
    (hb : pyStrip blank = []) :
    linesParas (ls1 ++ blank :: ls2) = linesParas ls1 ++ linesParas ls2 := by
  unfold linesParas
  rw [List.foldl_append, List.foldl_cons]
  have hstep : fixStep (ls1.foldl fixStep ([], [])) blank =
      (flushB (ls1.foldl fixStep ([], [])).1 (ls1.foldl fixStep ([], [])).2, []) := by
    unfold fixStep
    simp [hb]
  rw [hstep]
  rw [foldl_fixStep_append ls2 (flushB (ls1.foldl fixStep ([], [])).1
    (ls1.foldl fixStep ([], [])).2) []]
  rw [flushB_append]

/-- A non-blank line of at least 120 characters flushes the buffer and is
emitted, stripped, as its own paragraph. -/
theorem linesParas_long_split (ls1 ls2 : List PyStr) (long : PyStr)
    (hne : pyStrip long ≠ []) (hlen : 120 ≤ long.length) :
    linesParas (ls1 ++ long :: ls2) =
      linesParas ls1 ++ [pyStrip long] ++ linesParas ls2 := by
  unfold linesParas
  rw [List.foldl_append, List.foldl_cons]
  have hstep : fixStep (ls1.foldl fixStep ([], [])) long =
      (flushB (ls1.foldl fixStep ([], [])).1 (ls1.foldl fixStep ([], [])).2
        ++ [pyStrip long], []) := by
    unfold fixStep
    simp [hne, Nat.not_lt.mpr hlen]
  rw [hstep]
  rw [foldl_fixStep_append ls2 (flushB (ls1.foldl fixStep ([], [])).1
    (ls1.foldl fixStep ([], [])).2 ++ [pyStrip long]) []]
  rw [flushB_append]

/-! ## Lemmas about `pySplitlines` -/

theorem splitlinesAux_nil (b : Bool) (acc : List Char) :
    splitlinesAux b [] acc = if acc = [] then [] else [acc.reverse] := by
  simp [splitlinesAux]

theorem splitlinesAux_newline (rest acc : List Char) :
    splitlinesAux false ('\n' :: rest) acc =
      acc.reverse :: splitlinesAux false rest [] := by
  simp [splitlinesAux]

theorem splitlinesAux_other (b : Bool) (c : Char) (rest acc : List Char)
    (h1 : c ≠ '\n') (h2 : c ≠ '\r') :
    splitlinesAux b (c :: rest) acc = splitlinesAux false rest (c :: acc) := by
  simp [splitlinesAux, h1, h2]

theorem splitlinesAux_skip (p : List Char)
    (hp : ∀ c ∈ p, c ≠ '\n' ∧ c ≠ '\r') (rest acc : List Char) :
    splitlinesAux false (p ++ rest) acc = splitlinesAux false rest (p.reverse ++ acc) := by
  induction p generalizing acc with
  | nil => simp
  | cons c p' ih =>
    have hc := hp c (List.mem_cons_self c p')
    rw [List.cons_append, splitlinesAux_other false c (p' ++ rest) acc hc.1 hc.2]
    rw [ih (fun d hd => hp d (List.mem_cons_of_mem c hd)) (c :: acc)]
    simp

theorem splitlinesAux_lines_nl_free (s : List Char) :
    ∀ (b : Bool) (acc : List Char), (∀ c ∈ acc, c ≠ '\n' ∧ c ≠ '\r') →
    ∀ l ∈ splitlinesAux b s acc, ∀ c ∈ l, c ≠ '\n' ∧ c ≠ '\r' := by
  induction s with
  | nil =>
    intro b acc hacc l hl c hc
    rw [splitlinesAux_nil] at hl
    split at hl
    · simp at hl
    · simp at hl
      subst hl
      exact hacc c (List.mem_reverse.mp hc)
  | cons d rest ih =>
    intro b acc hacc l hl c hc
    by_cases hd1 : d = '\n'
    · subst hd1
      cases b with
      | false =>
        rw [splitlinesAux_newline] at hl
        rcases List.mem_cons.mp hl with rfl | hl'
        · exact hacc c (List.mem_reverse.mp hc)
        · exact ih false [] (by simp) l hl' c hc
      | true =>
        rw [show splitlinesAux true ('\n' :: rest) acc =
            splitlinesAux false rest acc by simp [splitlinesAux]] at hl
        exact ih false acc hacc l hl c hc
    · by_cases hd2 : d = '\r'
      · subst hd2
        rw [show splitlinesAux b ('\r' :: rest) acc = acc.reverse ::
            splitlinesAux true rest [] by simp [splitlinesAux, hd1]] at hl
        rcases List.mem_cons.mp hl with rfl | hl'
        · exact hacc c (List.mem_reverse.mp hc)
        · exact ih true [] (by simp) l hl' c hc
      · rw [splitlinesAux_other b d rest acc hd1 hd2] at hl
        refine ih false (d :: acc) ?_ l hl c hc
        intro e he
        rcases List.mem_cons.mp he with rfl | he'
        · exact ⟨hd1, hd2⟩
        · exact hacc e he'

theorem pySplitlines_nl_free (s : PyStr) :
    ∀ l ∈ pySplitlines s, ∀ c ∈ l, c ≠ '\n' ∧ c ≠ '\r' :=
  splitlinesAux_lines_nl_free s false [] (by simp)

/-- Splitting a `"\n\n"`-joined list of well-formed paragraphs recovers the
paragraphs, with one blank line between consecutive ones. -/
theorem pySplitlines_joinNN (ps : List PyStr) (hps : ∀ p ∈ ps, goodPara p) :
    pySplitlines (joinNN ps) = blankSep ps := by
  induction ps with
  | nil => simp [pySplitlines, joinNN, splitlinesAux, blankSep]
  | cons p qs ih =>
    have hp := hps p (List.mem_cons_self p qs)
    have hpnl : ∀ c ∈ p, c ≠ '\n' ∧ c ≠ '\r' := by
      intro c hcmem
      constructor
      · intro hEq; exact hp.2.2.1 (hEq ▸ hcmem)
      · intro hEq; exact hp.2.2.2 (hEq ▸ hcmem)
    cases qs with
    | nil =>
      show pySplitlines (joinNN [p]) = [p]
      unfold pySplitlines
      rw [show joinNN [p] = p ++ [] by simp [joinNN]]
      rw [splitlinesAux_skip p hpnl [] []]
      rw [splitlinesAux_nil]
      simp [hp.1]
    | cons q r =>
      unfold pySplitlines
      rw [joinNN_cons_cons]
      rw [show p ++ '\n' :: '\n' :: joinNN (q :: r) =
          p ++ ('\n' :: '\n' :: joinNN (q :: r)) by simp]
      rw [splitlinesAux_skip p hpnl ('\n' :: '\n' :: joinNN (q :: r)) []]
      rw [splitlinesAux_newline, splitlinesAux_newline]
      have ihq := ih (fun x hx => hps x (List.mem_cons_of_mem p hx))
      unfold pySplitlines at ihq
      rw [ihq]
      simp [blankSep]

/-! ## The paragraph invariant of the layout normalizer -/

theorem flushB_good (c buf : List PyStr) (hc : ∀ p ∈ c, goodPara p)
    (hb : ∀ b ∈ buf, b ≠ [] ∧ pyStrip b = b ∧ '\n' ∉ b ∧ '\r' ∉ b) :
    ∀ p ∈ flushB c buf, goodPara p := by
  unfold flushB
  split
  · exact hc
  · intro p hp
    rcases List.mem_append.mp hp with hp1 | hp2
    · exact hc p hp1
    · have hpj : p = joinSp buf := by simpa using hp2
      subst hpj
      have hgood := joinSp_good buf (fun b hbm => ⟨(hb b hbm).1, (hb b hbm).2.1⟩)
        (by assumption)
      refine ⟨hgood.1, hgood.2, ?_, ?_⟩
      · intro hmem
        rcases mem_joinSp buf '\n' hmem with hsp | ⟨b, hbm, hcb⟩
        · simp at hsp
        · exact (hb b hbm).2.2.1 hcb
      · intro hmem
        rcases mem_joinSp buf '\r' hmem with hsp | ⟨b, hbm, hcb⟩
        · simp at hsp
        · exact (hb b hbm).2.2.2 hcb

theorem foldl_fixStep_good (lines : List PyStr)
    (hl : ∀ l ∈ lines, ∀ c ∈ l, c ≠ '\n' ∧ c ≠ '\r') :
    ∀ (st : List PyStr × List PyStr), (∀ p ∈ st.1, goodPara p) →
    (∀ b ∈ st.2, b ≠ [] ∧ pyStrip b = b ∧ '\n' ∉ b ∧ '\r' ∉ b) →
    (∀ p ∈ (lines.foldl fixStep st).1, goodPara p) ∧
    (∀ b ∈ (lines.foldl fixStep st).2,
      b ≠ [] ∧ pyStrip b = b ∧ '\n' ∉ b ∧ '\r' ∉ b) := by
  induction lines with
  | nil => exact fun st h1 h2 => ⟨h1, h2⟩
  | cons line rest ih =>
    intro st h1 h2
    have hline := hl line (List.mem_cons_self line rest)
    have hstrip_entry : pyStrip line ≠ [] →
        pyStrip line ≠ [] ∧ pyStrip (pyStrip line) = pyStrip line ∧
          '\n' ∉ pyStrip line ∧ '\r' ∉ pyStrip line := by
      intro hne
      refine ⟨hne, pyStrip_idem line, ?_, ?_⟩
      · intro hmem
        exact (hline '\n' (mem_pyStrip line '\n' hmem)).1 rfl
      · intro hmem
        exact (hline '\r' (mem_pyStrip line '\r' hmem)).2 rfl
    rw [List.foldl_cons]
    refine ih (fun l hlm => hl l (List.mem_cons_of_mem line hlm)) (fixStep st line) ?_ ?_
    · unfold fixStep
      split
      · exact flushB_good st.1 st.2 h1 h2
      · split
        · exact h1
        · intro p hp
          rcases List.mem_append.mp hp with hp1 | hp2
          · exact flushB_good st.1 st.2 h1 h2 p hp1
          · have hps : p = pyStrip line := by simpa using hp2
            subst hps
            have hne : pyStrip line ≠ [] := by assumption
            have he := hstrip_entry hne
            exact ⟨he.1, he.2.1, he.2.2.1, he.2.2.2⟩
    · unfold fixStep
      split
      · simp
      · split
        · intro b hbm
          rcases List.mem_append.mp hbm with hb1 | hb2
          · exact h2 b hb1
          · have hbs : b = pyStrip line := by simpa using hb2
            subst hbs
            exact hstrip_entry (by assumption)
        · simp

theorem linesParas_good (lines : List PyStr)
    (hl : ∀ l ∈ lines, ∀ c ∈ l, c ≠ '\n' ∧ c ≠ '\r') :
    ∀ p ∈ linesParas lines, goodPara p := by
  unfold linesParas
  have h := foldl_fixStep_good lines hl ([], []) (by simp) (by simp)
  exact flushB_good _ _ h.1 h.2

theorem linesParas_single (p : PyStr) (hstrip : pyStrip p = p) (hne : p ≠ []) :
    linesParas [p] = [p] := by
  unfold linesParas
  rw [List.foldl_cons, List.foldl_nil]
  unfold fixStep flushB
  by_cases hlen : p.length < 120
  · simp [hstrip, hne, hlen, joinSp]
  · simp [hstrip, hne, hlen]

theorem linesParas_blankSep (ps : List PyStr)
    (hps : ∀ p ∈ ps, pyStrip p = p ∧ p ≠ []) : linesParas (blankSep ps) = ps := by
  induction ps with
  | nil => simp [blankSep, linesParas, flushB]
  | cons p qs ih =>
    have hp := hps p (List.mem_cons_self p qs)
    cases qs with
    | nil => exact linesParas_single p hp.1 hp.2
    | cons q r =>
      have hsplit := linesParas_blank_split [p] (blankSep (q :: r)) [] rfl
      rw [show blankSep (p :: q :: r) = [p] ++ [] :: blankSep (q :: r) from rfl]
      rw [hsplit, linesParas_single p hp.1 hp.2]
      rw [ih (fun x hx => hps x (List.mem_cons_of_mem p hx))]
      rfl

/-- `_layout_aware_fix` output unpacked: the final `strip` is a no-op on
the blank-line-joined well-formed paragraphs. -/
theorem fix_eq_joinNN (s : PyStr) :
    _layout_aware_fix s = joinNN (linesParas (pySplitlines s)) := by
  unfold _layout_aware_fix
  cases hps : linesParas (pySplitlines s) with
  | nil => rfl
  | cons p qs =>
    have hgood : ∀ q ∈ linesParas (pySplitlines s), goodPara q :=
      linesParas_good (pySplitlines s) (pySplitlines_nl_free s)
    rw [hps] at hgood
    exact (joinNN_good (p :: qs) (fun x hx => ⟨(hgood x hx).1, (hgood x hx).2.1⟩)
      (by simp)).2

/-! ## Lemmas about the chunking loop -/

theorem chunkCount_one (c o r : Nat) (hc : 0 < c) (ho : o < c) (hr1 : 0 < r)
    (hr2 : r ≤ c) : chunkCount c o r = 1 := by
  unfold chunkCount
  split
  · have hlo : 1 * (c - o) ≤ r - o + (c - o) - 1 := by omega
    have hhi : r - o + (c - o) - 1 < (1 + 1) * (c - o) := by omega
    exact Nat.div_eq_of_lt_le hlo hhi
  · rfl

theorem chunkCount_step (c o r : Nat) (hc : 0 < c) (ho : o < c) (hr : c < r) :
    chunkCount c o r = 1 + chunkCount c o (r - (c - o)) := by
  have hs : 0 < c - o := by omega
  have h1 : o < r := by omega
  have h2 : o < r - (c - o) := by omega
  unfold chunkCount
  rw [if_pos h1, if_pos h2]
  have h3 : r - o + (c - o) - 1 = (r - (c - o) - o + (c - o) - 1) + (c - o) := by omega
  rw [h3, Nat.add_div_right _ hs]
  omega

theorem chunkLoop_length (tok : Tokenizer) (enc : List Nat) (c o : Nat)
    (hc : 0 < c) (ho : o < c) :
    ∀ (fuel start : Nat), start < enc.length → enc.length - start ≤ fuel →
      (chunkLoop tok enc c o fuel start).length = chunkCount c o (enc.length - start) := by
  intro fuel
  induction fuel with
  | zero => intro start h1 h2; omega
  | succ n ih =>
    intro start h1 h2
    rw [chunkLoop, if_pos h1]
    by_cases he : min (start + c) enc.length = enc.length
    · rw [if_pos he]
      have : enc.length ≤ start + c := by omega
      exact (chunkCount_one c o (enc.length - start) hc ho (by omega) (by omega)).symm
    · rw [if_neg he]
      have hlt : start + c < enc.length := by omega
      have hrec := ih (start + (c - o)) (by omega) (by omega)
      have heq : enc.length - (start + (c - o)) = enc.length - start - (c - o) := by omega
      rw [heq] at hrec
      simp only [List.length_cons, hrec]
      rw [chunkCount_step c o (enc.length - start) hc ho (by omega)]
      omega

theorem chunkLoop_get (tok : Tokenizer) (enc : List Nat) (c o : Nat)
    (hc : 0 < c) (ho : o < c) :
    ∀ (fuel start i : Nat), start < enc.length → enc.length - start ≤ fuel →
      i < (chunkLoop tok enc c o fuel start).length →
      (chunkLoop tok enc c o fuel start).getD i [] =
        pyStrip (tok.decode ((enc.drop (start + i * (c - o))).take
          (min (start + i * (c - o) + c) enc.length - (start + i * (c - o))))) := by
  intro fuel
  induction fuel with
  | zero => intro start i h1 h2; omega
  | succ n ih =>
    intro start i h1 h2 h
    rw [chunkLoop, if_pos h1] at h ⊢
    by_cases he : min (start + c) enc.length = enc.length
    · rw [if_pos he] at h ⊢
      have hi : i = 0 := by
        simp at h
        omega
      subst hi
      simp
    · rw [if_neg he] at h ⊢
      cases i with
      | zero => simp
      | succ j =>
        have hlt : start + c < enc.length := by omega
        simp only [List.length_cons, Nat.succ_lt_succ_iff] at h
        rw [List.getD_cons_succ]
        rw [ih (start + (c - o)) j (by omega) (by omega) h]
        have harith : start + (c - o) + j * (c - o) = start + (j + 1) * (c - o) := by
          rw [Nat.succ_mul]
          omega
        rw [harith]

theorem chunkLoop_not_last (tok : Tokenizer) (enc : List Nat) (c o : Nat)
    (hc : 0 < c) (ho : o < c) :
    ∀ (fuel start i : Nat), start < enc.length → enc.length - start ≤ fuel →
      i + 1 < (chunkLoop tok enc c o fuel start).length →
      start + i * (c - o) + c < enc.length := by
  intro fuel
  induction fuel with
  | zero => intro start i h1 h2; omega
  | succ n ih =>
    intro start i h1 h2 h
    rw [chunkLoop, if_pos h1] at h
    by_cases he : min (start + c) enc.length = enc.length
    · rw [if_pos he] at h
      simp at h
    · rw [if_neg he] at h
      have hlt : start + c < enc.length := by omega
      cases i with
      | zero => omega
      | succ j =>
        simp only [List.length_cons, Nat.succ_lt_succ_iff] at h
        have := ih (start + (c - o)) j (by omega) (by omega) h
        have harith : start + (c - o) + j * (c - o) = start + (j + 1) * (c - o) := by
          rw [Nat.succ_mul]
          omega
        omega

/-! ## Lemmas about the batching loop of `summarize_chunks` -/

theorem foldl_append_eq_flatten (f : Nat → List PyStr) (idxs : List Nat)
    (acc : List PyStr) :
    idxs.foldl (fun acc2 i => acc2 ++ f i) acc = acc ++ (idxs.map f).flatten := by
  induction idxs generalizing acc with
  | nil => simp
  | cons i rest ih =>
    rw [List.foldl_cons, ih, List.map_cons, List.flatten_cons, List.append_assoc]

theorem batch_count_step (b n0 : Nat) (hb : 0 < b) (hn : 0 < n0) :
    (n0 + b - 1) / b = ((n0 - b) + b - 1) / b + 1 := by
  by_cases hcase : n0 ≤ b
  · have h1 : (n0 + b - 1) / b = 1 := by
      have hlo : 1 * b ≤ n0 + b - 1 := by omega
      have hhi : n0 + b - 1 < (1 + 1) * b := by omega
      exact Nat.div_eq_of_lt_le hlo hhi
    have h2 : ((n0 - b) + b - 1) / b = 0 := Nat.div_eq_of_lt (by omega)
    omega
  · have h1 : n0 + b - 1 = (n0 - 1) + b := by omega
    have h2 : (n0 - b) + b - 1 = (n0 - 1 - b) + b := by omega
    have h3 : n0 - 1 - b + b = n0 - 1 := by omega
    rw [h1, h2, h3, Nat.add_div_right _ hb]

theorem pyBatches_flatten (b : Nat) (hb : 0 < b) :
    ∀ (fuel : Nat) (l : List PyStr), l.length ≤ fuel → (pyBatches l b).flatten = l := by
  intro fuel
  induction fuel with
  | zero =>
    intro l hl
    have h0 : l = [] := List.length_eq_zero.mp (by omega)
    subst h0
    simp [pyBatches, Nat.div_eq_of_lt (by omega : 0 + b - 1 < b)]
  | succ n ih =>
    intro l hl
    by_cases h0 : l.length = 0
    · have h0' : l = [] := List.length_eq_zero.mp h0
      subst h0'
      simp [pyBatches, Nat.div_eq_of_lt (by omega : 0 + b - 1 < b)]
    · have hstep := batch_count_step b l.length hb (by omega)
      have hdroplen : (l.drop b).length = l.length - b := List.length_drop b l
      unfold pyBatches
      rw [hstep, List.range_succ_eq_map, List.map_cons, List.flatten_cons]
      have hmaps : ((List.range (((l.length - b) + b - 1) / b)).map Nat.succ).map
            (fun j => (l.drop (j * b)).take b) =
          (List.range (((l.drop b).length + b - 1) / b)).map
            (fun j => ((l.drop b).drop (j * b)).take b) := by
        rw [hdroplen, List.map_map]
        apply List.map_congr_left
        intro j _
        simp only [Function.comp]
        rw [List.drop_drop, Nat.succ_mul, Nat.add_comm (j * b) b]
      rw [hmaps]
      have hrec := ih (l.drop b) (by omega)
      unfold pyBatches at hrec
      rw [hrec]
      simp

theorem flatten_map_length (L : List (List PyStr)) (g : List PyStr → List PyStr)
    (hg : ∀ x ∈ L, (g x).length = x.length) :
    ((L.map g).flatten).length = L.flatten.length := by
  induction L with
  | nil => simp
  | cons x rest ih =>
    rw [List.map_cons, List.flatten_cons, List.flatten_cons, List.length_append,
      List.length_append, hg x (List.mem_cons_self x rest),
      ih (fun y hy => hg y (List.mem_cons_of_mem x hy))]

/-- `summarize_chunks` on a loaded (constructor-shaped) summarizer,
unfolded. -/
theorem summarize_chunks_some (nm : Option PyStr) (tk : Option Tokenizer)
    (md : Option Unit) (pl : SummCap) (chunks : List PyStr) (bs : Int) (mx mn : Nat) :
    (Summarizer.mk nm tk md (some pl)).summarize_chunks chunks bs mx mn =
      match pyRangeIdx chunks.length bs with
      | .error e => .error e
      | .ok idxs => .ok (idxs.foldl (fun summaries i =>
          summaries ++ ((pl ((chunks.drop i).take bs.toNat) mx mn).map pyStrip)) []) := rfl

/-- `aggregate_summaries` on a loaded (constructor-shaped) summarizer,
unfolded. -/
theorem aggregate_summaries_some (nm : Option PyStr) (tk : Option Tokenizer)
    (md : Option Unit) (pl : SummCap) (sums : List PyStr) (fx fn : Nat) :
    (Summarizer.mk nm tk md (some pl)).aggregate_summaries sums fx fn =
      (if sums = [] then .ok [] else
       if (pySplitWs (joinNN sums)).length ≤ fn then .ok (pyStrip (joinNN sums))
       else match pl [joinNN sums] fx fn with
            | [] => .error .indexError
            | r :: _ => .ok (pyStrip r)) := rfl

/-- A loaded summarizer never reports `ModelNotLoaded` from
`summarize_chunks`. -/
theorem summarize_chunks_some_ne (nm : Option PyStr) (tk : Option Tokenizer)
    (md : Option Unit) (pl : SummCap) (chunks : List PyStr) (bs : Int) (mx mn : Nat) :
    (Summarizer.mk nm tk md (some pl)).summarize_chunks chunks bs mx mn ≠
      .error .modelNotLoaded := by
  rw [summarize_chunks_some]
  cases hr : pyRangeIdx chunks.length bs with
  | error e =>
    unfold pyRangeIdx at hr
    split at hr
    · injection hr with he
      intro h
      injection h with h2
      exact SummErr.noConfusion (he.trans h2)
    · split at hr
      · exact Except.noConfusion hr
      · exact Except.noConfusion hr
  | ok idxs =>
    intro h
    exact Except.noConfusion h

/-- A loaded summarizer never reports `ModelNotLoaded` from
`aggregate_summaries`. -/
theorem aggregate_summaries_some_ne (nm : Option PyStr) (tk : Option Tokenizer)
    (md : Option Unit) (pl : SummCap) (sums : List PyStr) (fx fn : Nat) :
    (Summarizer.mk nm tk md (some pl)).aggregate_summaries sums fx fn ≠
      .error .modelNotLoaded := by
  rw [aggregate_summaries_some]
  by_cases hsums : sums = []
  · rw [if_pos hsums]
    exact fun h => Except.noConfusion h
  · rw [if_neg hsums]
    by_cases hwc : (pySplitWs (joinNN sums)).length ≤ fn
    · rw [if_pos hwc]
      exact fun h => Except.noConfusion h
    · rw [if_neg hwc]
      cases pl [joinNN sums] fx fn with
      | nil =>
        intro h
        injection h with h2
        exact SummErr.noConfusion h2
      | cons r rest => exact fun h => Except.noConfusion h

/-! ## Claim C2 -/

/-- C2: for every tokenizer, every text with a non-empty token encoding and
every valid configuration, `chunk_text` returns (rather than erring or
diverging) exactly `ceil((total_tokens - overlap) / (chunk_size - overlap))`
chunks when `total_tokens > overlap`, else exactly one chunk. -/
theorem C2_chunk_count (tok : Tokenizer) (text : PyStr) (c o : Nat)
    (hc : 0 < c) (ho : o < c) (hne : tok.encode text ≠ []) :
    ∃ chunks, chunk_text text tok (c : Int) (o : Int) = .ok chunks ∧
      chunks.length =
        if o < (tok.encode text).length then
          ((tok.encode text).length - o + (c - o) - 1) / (c - o)
        else 1 := by
  have hT : 0 < (tok.encode text).length := List.length_pos.mpr hne
  have hval : ¬((c : Int) ≤ 0 ∨ (o : Int) ≥ (c : Int) ∨ (o : Int) < 0) := by omega
  have hcN : ((c : Int)).toNat = c := by omega
  have hoN : ((o : Int)).toNat = o := by omega
  simp only [chunk_text]
  rw [if_neg hval, if_neg (by omega : ¬((tok.encode text).length = 0)), hcN, hoN]
  refine ⟨_, rfl, ?_⟩
  rw [chunkLoop_length tok (tok.encode text) c o hc ho (tok.encode text).length 0 hT
    (by omega)]
  unfold chunkCount
  rw [Nat.sub_zero]

set_option maxRecDepth 100000 in
/-- C2 witness: the end-to-end scenario — `"a " * 1200` under the dummy
whitespace tokenizer with `chunk_size = 256`, `overlap = 32` yields exactly
`ceil((1200 - 32) / 224) = 6` chunks. -/
theorem C2_chunk_count_witness :
    ∃ chunks, chunk_text text1200 dummyTok ((256 : Nat) : Int) ((32 : Nat) : Int) =
      .ok chunks ∧ chunks.length = 6 := by
  obtain ⟨chunks, h1, h2⟩ :=
    C2_chunk_count dummyTok text1200 256 32 (by decide) (by decide) (by decide)
  exact ⟨chunks, h1, by rw [h2]; decide⟩

/-! ## Claim C3 -/

/-- C3: every chunk produced by `chunk_text` under a valid configuration is
the stripped decoding of the contiguous token span starting at
`i * (chunk_size - overlap)` whose right edge is clamped to the token
count; every non-final chunk's span is exactly `chunk_size` tokens; and the
spans of consecutive chunks overlap in exactly `overlap` tokens. -/
theorem C3_chunk_spans (tok : Tokenizer) (text : PyStr) (c o : Nat)
    (chunks : List PyStr) (hc : 0 < c) (ho : o < c)
    (hne : tok.encode text ≠ [])
    (hok : chunk_text text tok (c : Int) (o : Int) = .ok chunks) :
    (∀ i, i < chunks.length →
      chunks.getD i [] =
        pyStrip (tok.decode (((tok.encode text).drop (i * (c - o))).take
          (min (i * (c - o) + c) (tok.encode text).length - i * (c - o))))) ∧
    (∀ i, i + 1 < chunks.length →
      min (i * (c - o) + c) (tok.encode text).length - i * (c - o) = c ∧
      (i + 1) * (c - o) ≤ min (i * (c - o) + c) (tok.encode text).length ∧
      min (i * (c - o) + c) (tok.encode text).length - (i + 1) * (c - o) = o) := by
  have hT : 0 < (tok.encode text).length := List.length_pos.mpr hne
  have hval : ¬((c : Int) ≤ 0 ∨ (o : Int) ≥ (c : Int) ∨ (o : Int) < 0) := by omega
  have hcN : ((c : Int)).toNat = c := by omega
  have hoN : ((o : Int)).toNat = o := by omega
  simp only [chunk_text] at hok
  rw [if_neg hval, if_neg (by omega : ¬((tok.encode text).length = 0)), hcN, hoN] at hok
  have hchunks := Except.ok.inj hok
  subst hchunks
  constructor
  · intro i hi
    have h := chunkLoop_get tok (tok.encode text) c o hc ho (tok.encode text).length 0 i
      hT (by omega) hi
    simpa using h
  · intro i hi
    have hspan := chunkLoop_not_last tok (tok.encode text) c o hc ho
      (tok.encode text).length 0 i hT (by omega) hi
    rw [Nat.zero_add] at hspan
    have hsucc : (i + 1) * (c - o) = i * (c - o) + (c - o) := Nat.succ_mul i (c - o)
    refine ⟨by omega, by omega, by omega⟩

/-- C3 witness: with the five-token tokenizer `tokC3`, `chunk_size = 2` and
`overlap = 1`, the first chunk is the stripped decoding of tokens `[0, 2)`,
its span is exactly 2 tokens, and the span shared with chunk 1 is exactly
1 token. -/
theorem C3_chunk_spans_witness :
    (["xx".data, "xx".data, "xx".data, "xx".data] : List PyStr).getD 0 [] =
      pyStrip (tokC3.decode (((tokC3.encode []).drop (0 * (2 - 1))).take
        (min (0 * (2 - 1) + 2) (tokC3.encode []).length - 0 * (2 - 1)))) ∧
    min (0 * (2 - 1) + 2) (tokC3.encode []).length - 0 * (2 - 1) = 2 ∧
    min (0 * (2 - 1) + 2) (tokC3.encode []).length - (0 + 1) * (2 - 1) = 1 := by
  have h := C3_chunk_spans tokC3 [] 2 1 ["xx".data, "xx".data, "xx".data, "xx".data]
    (by decide) (by decide) (by decide) rfl
  exact ⟨h.1 0 (by decide), (h.2 0 (by decide)).1, (h.2 0 (by decide)).2.2⟩

/-! ## Claim C6 -/

/-- C6: `chunk_text` fails with the `InvalidChunkConfig` `ValueError` if and
only if `chunk_size ≤ 0` or `overlap < 0` or `overlap ≥ chunk_size`; on an
invalid configuration the result does not depend on the tokenizer (it is
rejected before the tokenizer is invoked); and on a valid configuration a
text whose encoding is empty yields the empty chunk sequence, not an
error. -/
theorem C6_chunk_validation (text : PyStr) (tok tok2 : Tokenizer) (c o : Int) :
    (chunk_text text tok c o = .error .invalidChunkConfig ↔
      c ≤ 0 ∨ o < 0 ∨ o ≥ c) ∧
    (c ≤ 0 ∨ o < 0 ∨ o ≥ c → chunk_text text tok c o = chunk_text text tok2 c o) ∧
    (¬(c ≤ 0 ∨ o < 0 ∨ o ≥ c) → tok.encode text = [] →
      chunk_text text tok c o = .ok []) := by
  by_cases hv : c ≤ 0 ∨ o ≥ c ∨ o < 0
  · have hv2 : c ≤ 0 ∨ o < 0 ∨ o ≥ c := by tauto
    refine ⟨?_, ?_, ?_⟩
    · simp only [chunk_text]
      rw [if_pos hv]
      exact iff_of_true rfl hv2
    · intro _
      simp only [chunk_text]
      rw [if_pos hv, if_pos hv]
    · intro hcon
      exact absurd hv2 hcon
  · have hv2 : ¬(c ≤ 0 ∨ o < 0 ∨ o ≥ c) := by tauto
    refine ⟨?_, ?_, ?_⟩
    · refine iff_of_false ?_ hv2
      intro h
      simp only [chunk_text] at h
      rw [if_neg hv] at h
      split at h
      · exact Except.noConfusion h
      · exact Except.noConfusion h
    · intro h
      exact absurd h hv2
    · intro _ henc
      simp only [chunk_text]
      rw [if_neg hv, if_pos (by rw [henc]; rfl : (tok.encode text).length = 0)]

/-- C6 witness: `chunk_size = 0` is rejected with `InvalidChunkConfig`
whatever the tokenizer (the results under `tokA` and `tokB` coincide), and
an empty encoding with the valid configuration `(1, 0)` yields `[]`. -/
theorem C6_chunk_validation_witness :
    chunk_text [] tokA 0 0 = .error .invalidChunkConfig ∧
    chunk_text [] tokA 0 0 = chunk_text [] tokB 0 0 ∧
    chunk_text [] tokE 1 0 = .ok [] := by
  have h1 := C6_chunk_validation [] tokA tokB 0 0
  have h2 := C6_chunk_validation [] tokE tokB 1 0
  exact ⟨h1.1.mpr (Or.inl (by decide)), h1.2.1 (Or.inl (by decide)),
    h2.2.2 (by decide) rfl⟩

/-! ## Claim C9 -/

/-- C9 (amended): the Layout Normalizer `_layout_aware_fix` is a total pure
function mapping the empty string to the empty string; a blank line (one
whose strip is empty) always flushes the currently buffered short lines as
one paragraph joined by single spaces and never lets a paragraph span the
blank-line boundary; and a NON-BLANK line of 120 or more characters always
flushes any pending buffer and is emitted, stripped, as its own standalone
paragraph.  (The amendment: a whitespace-only line of 120 or more characters
is handled by the blank-line rule, not emitted.) -/
theorem C9_layout_normalizer_rules :
    _layout_aware_fix [] = [] ∧
    (∀ (ls1 ls2 : List PyStr) (blank : PyStr), pyStrip blank = [] →
      linesParas (ls1 ++ blank :: ls2) = linesParas ls1 ++ linesParas ls2) ∧
    (∀ (ls1 ls2 : List PyStr) (long : PyStr), pyStrip long ≠ [] →
      120 ≤ long.length →
      linesParas (ls1 ++ long :: ls2) =
        linesParas ls1 ++ [pyStrip long] ++ linesParas ls2) :=
  ⟨rfl, linesParas_blank_split, linesParas_long_split⟩

/-- C9 counterexample to the claim as stated: a line of 120 space characters
has 120 or more characters, yet it is not emitted as its own standalone
paragraph — the loop treats it as a blank line, so
`_layout_aware_fix "ab\n<120 spaces>\ncd"` is just `"ab\n\ncd"` and the
paragraph list is not `[paragraphs of "ab"] ++ [stripped line] ++
[paragraphs of "cd"]`. -/
theorem C9_whitespace_long_line_counterexample :
    _layout_aware_fix ("ab\n".data ++ List.replicate 120 ' ' ++ "\ncd".data) =
      "ab\n\ncd".data ∧
    120 ≤ (List.replicate 120 ' ' : PyStr).length ∧
    linesParas (["ab".data] ++ List.replicate 120 ' ' :: ["cd".data]) ≠
      linesParas ["ab".data] ++ [pyStrip (List.replicate 120 ' ')] ++
        linesParas ["cd".data] := by
  refine ⟨by decide, by decide, by decide⟩

/-- C9 witness: the amended rules applied at concrete inputs — an empty
line splits `["ab"]` and `["cd"]` into separate paragraphs, and a non-blank
line of 120 `x` characters is emitted standalone between them. -/
theorem C9_layout_normalizer_rules_witness :
    linesParas (["ab".data] ++ ([] : PyStr) :: ["cd".data]) =
      linesParas ["ab".data] ++ linesParas ["cd".data] ∧
    linesParas (["ab".data] ++ List.replicate 120 'x' :: ["cd".data]) =
      linesParas ["ab".data] ++ [pyStrip (List.replicate 120 'x')] ++
        linesParas ["cd".data] :=
  ⟨C9_layout_normalizer_rules.2.1 ["ab".data] ["cd".data] [] rfl,
   C9_layout_normalizer_rules.2.2 ["ab".data] ["cd".data] (List.replicate 120 'x')
     (by decide) (by decide)⟩

/-! ## Claim C10 -/

/-- C10: the Layout Normalizer is idempotent — applying `_layout_aware_fix`
to its own output returns that output unchanged, because the output is a
list of non-empty, strip-invariant, line-break-free paragraphs separated by
exactly one blank line, and such text re-normalizes to itself. -/
theorem C10_layout_fix_idempotent (s : PyStr) :
    _layout_aware_fix (_layout_aware_fix s) = _layout_aware_fix s := by
  have hgood : ∀ p ∈ linesParas (pySplitlines s), goodPara p :=
    linesParas_good _ (pySplitlines_nl_free s)
  rw [fix_eq_joinNN s, fix_eq_joinNN (joinNN (linesParas (pySplitlines s)))]
  rw [pySplitlines_joinNN _ hgood]
  rw [linesParas_blankSep _ (fun p hp => ⟨(hgood p hp).2.1, (hgood p hp).1⟩)]

/-! ## Claim C1 -/

/-- C1 counterexample to the claim as stated: structured extraction yields
`"short"` (below the OCR threshold 200, so OCR is required), and the OCR
engine cannot run at all — every per-page `pytesseract` call raises
`TesseractError`.  The claim demands the fatal `OCRUnavailable` failure, but
the per-page `except Exception` inside `_ocr_with_fitz` absorbs the engine
failure, OCR contributes nothing, and `extract_text_from_pdf` falls back to
returning the shorter working text `"short"`. -/
theorem C1_engine_failure_counterexample :
    extract_text_from_pdf (.ok "short".data) none
      [.error .tesseract, .error .tesseract] 200 = .ok "short".data := by
  rfl

/-- C1 (amended): exceptions raised by the per-page OCR calls — the only
places the Tesseract engine is actually invoked — are absorbed as soft page
failures, so when every page's OCR attempt raises, `extract_text_from_pdf`
returns the working text (stripped) instead of failing; the fatal
`OCRUnavailable` error is raised only when a `pytesseract.TesseractError`
escapes outside the per-page loop (modelled by `docFail`) while OCR is
required. -/
theorem C1_ocr_failure_behavior (plumber : Except Unit PyStr)
    (pages : List (Except OcrExc PyStr)) (thr : Nat) :
    ((∀ p ∈ pages, ∃ e, p = Except.error e) →
      extract_text_from_pdf plumber none pages thr =
        .ok (pyStrip (layoutRepairStage (stage1Text plumber) thr))) ∧
    ((layoutRepairStage (stage1Text plumber) thr = [] ∨
        (layoutRepairStage (stage1Text plumber) thr).length < thr) →
      extract_text_from_pdf plumber (some .tesseract) pages thr =
        .error .ocrUnavailable) := by
  constructor
  · intro hall
    have hnone : pages.filterMap Except.toOption = [] := by
      rw [List.filterMap_eq_nil_iff]
      intro p hp
      obtain ⟨e, rfl⟩ := hall p hp
      rfl
    have hocr : _ocr_with_fitz none pages = .ok [] := by
      unfold _ocr_with_fitz
      rw [hnone]
      rfl
    have hupd : ∀ t : PyStr, ocrUpdate t [] = t := by
      intro t
      unfold ocrUpdate
      simp
    simp only [extract_text_from_pdf, hocr, hupd]
    split <;> rfl
  · intro hcond
    have hocr : _ocr_with_fitz (some .tesseract) pages = .error .tesseract := rfl
    simp only [extract_text_from_pdf, hocr]
    rw [if_pos hcond]

/-- C1 witness: with structured text `"hi"` and a single failing OCR page
the pipeline returns `"hi"`; with a document-level `TesseractError` it
fails with the fatal error. -/
theorem C1_ocr_failure_behavior_witness :
    extract_text_from_pdf (.ok "hi".data) none [.error .tesseract] 200 =
      .ok (pyStrip (layoutRepairStage (stage1Text (.ok "hi".data)) 200)) ∧
    extract_text_from_pdf (.ok "hi".data) (some .tesseract) [] 200 =
      .error .ocrUnavailable :=
  ⟨(C1_ocr_failure_behavior (.ok "hi".data) [.error .tesseract] 200).1
      (by intro p hp; simp at hp; exact ⟨.tesseract, hp⟩),
   (C1_ocr_failure_behavior (.ok "hi".data) [] 200).2 (by right; decide)⟩

/-! ## Claim C7 -/

/-- C7: every replacement of the working text in the extraction pipeline
uses a strict greater-than length comparison: a layout-repaired candidate
of exactly the working text's length is discarded, an OCR candidate of
exactly the working text's length is discarded, and end to end a
pipeline run whose repaired text and OCR text both tie in length returns
the stage-1 text. -/
theorem C7_strict_length_comparison (t u : PyStr) (thr : Nat) :
    ((_layout_aware_fix t).length = t.length → layoutRepairStage t thr = t) ∧
    (u.length = t.length → ocrUpdate t u = t) ∧
    (t ≠ [] → t.length < thr → (_layout_aware_fix t).length = t.length →
      (pyStrip u).length = t.length →
      extract_text_from_pdf (.ok t) none [.ok u] thr = .ok (pyStrip t)) := by
  refine ⟨?_, ?_, ?_⟩
  · intro heq
    unfold layoutRepairStage
    split
    · simp [heq]
    · rfl
  · intro heq
    unfold ocrUpdate
    rw [heq]
    simp
  · intro hne hlt hfix hocr
    have hrepair : layoutRepairStage t thr = t := by
      unfold layoutRepairStage
      split
      · simp [hfix]
      · rfl
    have hfitz : _ocr_with_fitz none [Except.ok u] = .ok (pyStrip u) := rfl
    have hupd : ocrUpdate t (pyStrip u) = t := by
      unfold ocrUpdate
      rw [hocr]
      simp
    simp only [extract_text_from_pdf, stage1Text, hrepair, hfitz, hupd]
    rw [if_pos (Or.inr hlt)]

/-- C7 witness: with stage-1 text `"ab"`, a repaired candidate of equal
length, and OCR output `"xy"` of equal stripped length, the pipeline keeps
`"ab"`. -/
theorem C7_strict_length_comparison_witness :
    layoutRepairStage "ab".data 200 = "ab".data ∧
    ocrUpdate "ab".data "xy".data = "ab".data ∧
    extract_text_from_pdf (.ok "ab".data) none [.ok "xy".data] 200 =
      .ok (pyStrip "ab".data) :=
  ⟨(C7_strict_length_comparison "ab".data "xy".data 200).1 (by decide),
   (C7_strict_length_comparison "ab".data "xy".data 200).2.1 (by decide),
   (C7_strict_length_comparison "ab".data "xy".data 200).2.2 (by decide)
     (by decide) (by decide) (by decide)⟩

/-! ## Claim C4 -/

/-- C4 counterexample to the claim as stated: `aggregate_summaries` on a
fresh Unloaded summarizer does NOT fail with `ModelNotLoaded` for the empty
input — the `if not chunk_summaries: return ""` short-circuit precedes the
model check, so it returns `""`. -/
theorem C4_unloaded_empty_counterexample :
    sU.aggregate_summaries [] 200 50 = .ok [] := rfl

/-- C4 (amended): in the Unloaded state `summarize_chunks` fails with
`ModelNotLoaded` for every input, and `aggregate_summaries` fails with
`ModelNotLoaded` for every NON-EMPTY input, while the empty input returns
`""` even when Unloaded; after `load_model` neither operation can fail with
`ModelNotLoaded`. -/
theorem C4_model_not_loaded (s : Summarizer) (chunks sums : List PyStr)
    (bs : Int) (mx mn fx fn : Nat) :
    (s.pipeline = none →
      s.summarize_chunks chunks bs mx mn = .error .modelNotLoaded) ∧
    (s.pipeline = none → sums ≠ [] →
      s.aggregate_summaries sums fx fn = .error .modelNotLoaded) ∧
    (s.aggregate_summaries [] fx fn = .ok []) ∧
    (∀ (name : PyStr) (tok : Tokenizer) (pl : SummCap),
      (s.load_model name tok pl).summarize_chunks chunks bs mx mn ≠
        .error .modelNotLoaded ∧
      (s.load_model name tok pl).aggregate_summaries sums fx fn ≠
        .error .modelNotLoaded) := by
  refine ⟨?_, ?_, ?_, ?_⟩
  · intro h
    unfold Summarizer.summarize_chunks
    rw [h]
  · intro h hne
    unfold Summarizer.aggregate_summaries
    rw [if_neg hne, h]
  · unfold Summarizer.aggregate_summaries
    rw [if_pos rfl]
  · intro name tok pl
    obtain ⟨f1, f2, f3, f4⟩ := s
    unfold Summarizer.load_model
    split
    · rename_i hcond
      obtain ⟨pl2, hpl2⟩ := Option.isSome_iff_exists.mp hcond.2
      have hf4 : f4 = some pl2 := hpl2
      subst hf4
      exact ⟨summarize_chunks_some_ne f1 f2 f3 pl2 chunks bs mx mn,
        aggregate_summaries_some_ne f1 f2 f3 pl2 sums fx fn⟩
    · exact ⟨summarize_chunks_some_ne (some name) (some tok) (some ()) pl chunks bs mx mn,
        aggregate_summaries_some_ne (some name) (some tok) (some ()) pl sums fx fn⟩

/-- C4 witness: on the fresh summarizer `sU` both operations fail with
`ModelNotLoaded` for `["a"]`, the empty aggregation returns `""`, and after
`load_model` the `ModelNotLoaded` failure is impossible. -/
theorem C4_model_not_loaded_witness :
    sU.summarize_chunks ["a".data] 4 150 30 = .error .modelNotLoaded ∧
    sU.aggregate_summaries ["a".data] 200 50 = .error .modelNotLoaded ∧
    sU.aggregate_summaries [] 200 50 = .ok [] ∧
    (sU.load_model [] tokA plId).summarize_chunks ["a".data] 4 150 30 ≠
      .error .modelNotLoaded := by
  have h := C4_model_not_loaded sU ["a".data] ["a".data] 4 150 30 200 50
  exact ⟨h.1 rfl, h.2.1 rfl (by simp), h.2.2.1, (h.2.2.2 [] tokA plId).1⟩

/-! ## Claim C5 -/

/-- C5: `aggregate_summaries` returns `""` on the empty input; on a
non-empty input with a loaded pipeline it joins the summaries with a blank
line, and when the word count of the concatenation is at most
`final_summary_min_length` it returns the stripped concatenation — an
expression independent of the summarization capability, which is therefore
not invoked; only when the word count exceeds the bound does it invoke the
capability, exactly once, on the concatenation. -/
theorem C5_aggregate_short_circuit :
    (∀ (s : Summarizer) (fx fn : Nat), s.aggregate_summaries [] fx fn = .ok []) ∧
    (∀ (nm : Option PyStr) (tk : Option Tokenizer) (md : Option Unit) (pl : SummCap)
      (sums : List PyStr) (fx fn : Nat), sums ≠ [] →
      (pySplitWs (joinNN sums)).length ≤ fn →
      (Summarizer.mk nm tk md (some pl)).aggregate_summaries sums fx fn =
        .ok (pyStrip (joinNN sums))) ∧
    (∀ (nm : Option PyStr) (tk : Option Tokenizer) (md : Option Unit) (pl : SummCap)
      (sums : List PyStr) (fx fn : Nat), sums ≠ [] →
      fn < (pySplitWs (joinNN sums)).length →
      (Summarizer.mk nm tk md (some pl)).aggregate_summaries sums fx fn =
        match pl [joinNN sums] fx fn with
        | [] => .error .indexError
        | r :: _ => .ok (pyStrip r)) := by
  refine ⟨?_, ?_, ?_⟩
  · intro s fx fn
    unfold Summarizer.aggregate_summaries
    rw [if_pos rfl]
  · intro nm tk md pl sums fx fn hne hwc
    unfold Summarizer.aggregate_summaries
    rw [if_neg hne]
    show (if (pySplitWs (joinNN sums)).length ≤ fn then _ else _) = _
    rw [if_pos hwc]
  · intro nm tk md pl sums fx fn hne hwc
    unfold Summarizer.aggregate_summaries
    rw [if_neg hne]
    show (if (pySplitWs (joinNN sums)).length ≤ fn then _ else _) = _
    rw [if_neg (by omega)]

/-- C5 witness: `["hi"]` has word count 1 — below the default bound 50 the
stripped concatenation is returned whatever the capability; with the bound
0 the identity capability is invoked once on the concatenation. -/
theorem C5_aggregate_short_circuit_witness :
    (Summarizer.mk none none none (some plId)).aggregate_summaries
        ["hi".data] 200 50 = .ok (pyStrip (joinNN ["hi".data])) ∧
    (Summarizer.mk none none none (some plId)).aggregate_summaries
        ["hi".data] 200 0 =
      match plId [joinNN ["hi".data]] 200 0 with
      | [] => .error .indexError
      | r :: _ => .ok (pyStrip r) :=
  ⟨C5_aggregate_short_circuit.2.1 none none none plId ["hi".data] 200 50
      (by simp) (by decide),
   C5_aggregate_short_circuit.2.2 none none none plId ["hi".data] 200 0
      (by simp) (by decide)⟩

/-! ## Claim C8 -/

/-- C8 counterexample to the claim as stated: `batch_size = 0` is
non-negative, but `range(0, len(chunks), 0)` raises `ValueError`, so
`summarize_chunks` on a loaded summarizer errors instead of returning one
summary per chunk. -/
theorem C8_zero_batch_counterexample :
    (Summarizer.mk none none none (some plId)).summarize_chunks
      ["a".data] 0 150 30 = .error .valueError := rfl

/-- C8 (amended): for every POSITIVE `batch_size`, on a loaded summarizer
whose capability returns one summary per input text, `summarize_chunks`
partitions the chunks into consecutive batches of at most `batch_size`
(their concatenation is the chunk sequence), returns the concatenation of
the per-batch capability results, each stripped, in order — one capability
invocation per batch — and the output length equals the input length. -/
theorem C8_batched_summaries (nm : Option PyStr) (tk : Option Tokenizer)
    (md : Option Unit) (pl : SummCap) (chunks : List PyStr) (bs : Int)
    (mx mn : Nat) (hbs : 0 < bs)
    (hone : ∀ texts a b2, (pl texts a b2).length = texts.length) :
    (Summarizer.mk nm tk md (some pl)).summarize_chunks chunks bs mx mn =
      .ok (((pyBatches chunks bs.toNat).map
        (fun batch => (pl batch mx mn).map pyStrip)).flatten) ∧
    (pyBatches chunks bs.toNat).flatten = chunks ∧
    (∀ batch ∈ pyBatches chunks bs.toNat, batch.length ≤ bs.toNat) ∧
    (((pyBatches chunks bs.toNat).map
      (fun batch => (pl batch mx mn).map pyStrip)).flatten).length = chunks.length := by
  have hb : 0 < bs.toNat := by omega
  have hflat : (pyBatches chunks bs.toNat).flatten = chunks :=
    pyBatches_flatten bs.toNat hb chunks.length chunks (Nat.le_refl _)
  refine ⟨?_, hflat, ?_, ?_⟩
  · rw [summarize_chunks_some]
    have hr : pyRangeIdx chunks.length bs =
        .ok ((List.range ((chunks.length + bs.toNat - 1) / bs.toNat)).map
          (· * bs.toNat)) := by
      unfold pyRangeIdx
      rw [if_neg (by omega), if_neg (by omega)]
    rw [hr]
    show Except.ok (((List.range ((chunks.length + bs.toNat - 1) / bs.toNat)).map
        (· * bs.toNat)).foldl (fun summaries i =>
          summaries ++ ((pl ((chunks.drop i).take bs.toNat) mx mn).map pyStrip)) []) = _
    rw [foldl_append_eq_flatten
      (fun i => (pl ((chunks.drop i).take bs.toNat) mx mn).map pyStrip)]
    rw [List.nil_append, List.map_map]
    unfold pyBatches
    rw [List.map_map]
    rfl
  · intro batch hbatch
    unfold pyBatches at hbatch
    rw [List.mem_map] at hbatch
    obtain ⟨j, _, rfl⟩ := hbatch
    exact List.length_take_le _ _
  · rw [flatten_map_length _ _ (fun x _ => by rw [List.length_map, hone]), hflat]

/-- C8 witness: the identity capability on `["a", "bb", "ccc"]` with
`batch_size = 2` yields the flattened per-batch results, of length 3. -/
theorem C8_batched_summaries_witness :
    (Summarizer.mk none none none (some plId)).summarize_chunks
        ["a".data, "bb".data, "ccc".data] 2 150 30 =
      .ok (((pyBatches ["a".data, "bb".data, "ccc".data] ((2 : Int)).toNat).map
        (fun batch => (plId batch 150 30).map pyStrip)).flatten) ∧
    (((pyBatches ["a".data, "bb".data, "ccc".data] ((2 : Int)).toNat).map
      (fun batch => (plId batch 150 30).map pyStrip)).flatten).length =
      (["a".data, "bb".data, "ccc".data] : List PyStr).length := by
  have h := C8_batched_summaries none none none plId
    ["a".data, "bb".data, "ccc".data] 2 150 30 (by decide) (fun _ _ _ => rfl)
  exact ⟨h.1, h.2.2.2⟩

end RPS
